import Mathlib

/-!
# Verification of the kingdon geometric-algebra core

A shallow embedding of the kingdon repository's core (`kingdon/codegen.py`
and `kingdon/multivector.py`) together with proofs about it.

Modelling conventions:

* A sparse multivector's `vals` mapping (Python `dict`, insertion ordered,
  keys = basis blades in binary representation, values = coefficients) is an
  association list `List (Nat × ℚ)` whose entry order mirrors the dict's
  insertion order.  `MultiVector` stores `_keys` and `_values` as two aligned
  tuples; the association list is the zipped form of those tuples, and the
  Python comparison `mv1 == mv2` (dataclass equality on the key and value
  tuples) is equality of the association lists.
* Coefficients of the symbolic derivation pipeline are sympy expressions that
  are generic in the input placeholders; `sympy.simplify` decides whether
  such an expression is identically zero.  We model coefficients as elements
  of the exact field `ℚ`, where "symbolically simplifies to zero" is exactly
  "equals 0".
* The algebra descriptor (class `Algebra`) is an external collaborator (spec
  §1 OUT OF SCOPE, §6): the code only reads its tables.  It is modelled as a
  structure of read-only fields.
-/

namespace Kingdon

/-- The coefficient mapping of a sparse multivector: an insertion-ordered
association list from binary blade keys to coefficients. -/
abbrev Vals := List (Nat × ℚ)

/-- Modelled from the spec (§6, the descriptor contract; the `Algebra` class
itself is not under `src/`): the read-only algebra descriptor consumed by the
core.  `signs` is the metric/parity sign table `signs[ei, ej]`, `d` the
dimension, `r` the degenerate-dimension count, `size` the total number of
basis blades (`len(algebra)`), `pssKey` the pseudoscalar's key, and
`bin2canon`/`canon2bin` the canonical-name tables. -/
structure Algebra where
  d : Nat
  r : Nat
  size : Nat
  pssKey : Nat
  signs : Nat → Nat → ℚ
  bin2canon : List (Nat × String)
  canon2bin : List (String × Nat)

/-- First-occurrence lookup in an association list (Python `dict` access /
`tuple.index` followed by reading the aligned value). -/
def dlookup {κ α : Type} [DecidableEq κ] : List (κ × α) → κ → Option α
  | [], _ => none
  | (k, v) :: rest, k' => if k' = k then some v else dlookup rest k'

/-- `dlookup` with default `0`: the coefficient a key reads as. -/
def dlookupD (l : Vals) (k : Nat) : ℚ :=
  (dlookup l k).getD 0

/-- The Python statement `d[k] += v` on a `defaultdict(int)` (also `d[k] = v`
for an absent key): add `v` to the first entry with key `k`, or append
`(k, v)` when `k` is absent. -/
def addTo : Vals → Nat → ℚ → Vals
  | [], k, v => [(k, v)]
  | (k', v') :: rest, k, v =>
      if k' = k then (k', v' + v) :: rest else (k', v') :: addTo rest k v

/-- The ordered cartesian product
`product(x.vals.items(), y.vals.items())` (outer loop over `x`). -/
def pairProd (x y : Vals) : List ((Nat × ℚ) × (Nat × ℚ)) :=
  x.flatMap fun p => y.map fun q => (p, q)

/-- The loop body of `codegen_gp`: for the pair `((ei, vi), (ej, vj))`, if
`signs[ei, ej]` is truthy (non-zero) accumulate `signs[ei,ej] * vi * vj`
under key `ei XOR ej`, otherwise skip the pair. -/
def gpStep (A : Algebra) (acc : Vals) (pq : (Nat × ℚ) × (Nat × ℚ)) : Vals :=
  if A.signs pq.1.1 pq.2.1 ≠ 0 then
    addTo acc (pq.1.1 ^^^ pq.2.1) (A.signs pq.1.1 pq.2.1 * pq.1.2 * pq.2.2)
  else acc

/-- `codegen_gp` (codegen.py, symbolic mode): accumulate over the cartesian
product of active entries, then drop every accumulated coefficient that
simplifies to zero. -/
def codegen_gp (A : Algebra) (x y : Vals) : Vals :=
  ((pairProd x y).foldl (gpStep A) []).filter fun kv => kv.2 ≠ 0

/-- The contribution of one pair of active entries to output key `k`. -/
def gpTerm (A : Algebra) (k : Nat) (pq : (Nat × ℚ) × (Nat × ℚ)) : ℚ :=
  if pq.1.1 ^^^ pq.2.1 = k ∧ A.signs pq.1.1 pq.2.1 ≠ 0 then
    A.signs pq.1.1 pq.2.1 * pq.1.2 * pq.2.2
  else 0

/-- The total geometric-product contribution to output key `k`: the sum of
`signs[ei,ej] * vi * vj` over the pairs of active entries with non-zero sign
and `ei XOR ej = k`. -/
def gpCoeff (A : Algebra) (x y : Vals) (k : Nat) : ℚ :=
  ((pairProd x y).map (gpTerm A k)).sum

theorem dlookup_addTo_self (l : Vals) (k : Nat) (v : ℚ) :
    dlookup (addTo l k v) k = some ((dlookup l k).getD 0 + v) := by
  induction l with
  | nil => simp [addTo, dlookup]
  | cons hd tl ih =>
      obtain ⟨k', v'⟩ := hd
      by_cases h : k' = k
      · subst h
        simp [addTo, dlookup]
      · simp [addTo, dlookup, h, Ne.symm h, ih]

theorem dlookup_addTo_ne (l : Vals) (k k' : Nat) (v : ℚ) (h : k' ≠ k) :
    dlookup (addTo l k v) k' = dlookup l k' := by
  induction l with
  | nil => simp [addTo, dlookup, h]
  | cons hd tl ih =>
      obtain ⟨k₀, v₀⟩ := hd
      by_cases h0 : k₀ = k
      · subst h0
        simp [addTo, dlookup, fun hh : k' = k₀ => h hh]
      · simp only [addTo, if_neg h0, dlookup]
        by_cases h1 : k' = k₀ <;> simp [h1, ih]

theorem keys_addTo (l : Vals) (k : Nat) (v : ℚ) :
    (addTo l k v).map Prod.fst =
      if k ∈ l.map Prod.fst then l.map Prod.fst else l.map Prod.fst ++ [k] := by
  induction l with
  | nil => simp [addTo]
  | cons hd tl ih =>
      obtain ⟨k₀, v₀⟩ := hd
      by_cases h0 : k₀ = k
      · subst h0
        simp [addTo]
      · simp only [addTo, if_neg h0, List.map_cons, List.mem_cons]
        rw [ih]
        have hk : ¬ k = k₀ := fun hh => h0 hh.symm
        by_cases hmem : k ∈ tl.map Prod.fst <;> simp [hmem, hk]

theorem nodupKeys_addTo (l : Vals) (k : Nat) (v : ℚ)
    (h : (l.map Prod.fst).Nodup) : ((addTo l k v).map Prod.fst).Nodup := by
  rw [keys_addTo]
  by_cases hmem : k ∈ l.map Prod.fst
  · simpa [hmem] using h
  · simpa [hmem] using List.Nodup.append h (List.nodup_singleton k)
      (by simpa using hmem)

theorem dlookup_eq_none_of_not_mem_keys {l : Vals} {k : Nat}
    (h : k ∉ l.map Prod.fst) : dlookup l k = none := by
  induction l with
  | nil => rfl
  | cons hd tl ih =>
      obtain ⟨k₀, v₀⟩ := hd
      simp only [List.map_cons, List.mem_cons, not_or] at h
      simp [dlookup, h.1, ih h.2]

theorem dlookupD_gpStep (A : Algebra) (k : Nat) (acc : Vals)
    (pq : (Nat × ℚ) × (Nat × ℚ)) :
    dlookupD (gpStep A acc pq) k = dlookupD acc k + gpTerm A k pq := by
  unfold gpStep gpTerm
  by_cases hs : A.signs pq.1.1 pq.2.1 ≠ 0
  · rw [if_pos hs]
    by_cases hk : pq.1.1 ^^^ pq.2.1 = k
    · rw [← hk]
      unfold dlookupD
      rw [dlookup_addTo_self]
      simp [hk, hs]
    · unfold dlookupD
      rw [dlookup_addTo_ne _ _ _ _ fun h => hk h.symm]
      simp [hk]
  · rw [if_neg hs]
    push_neg at hs
    simp [hs]

theorem dlookupD_foldl_gpStep (A : Algebra) (k : Nat)
    (l : List ((Nat × ℚ) × (Nat × ℚ))) :
    ∀ acc : Vals,
      dlookupD (l.foldl (gpStep A) acc) k =
        dlookupD acc k + (l.map (gpTerm A k)).sum := by
  induction l with
  | nil => simp
  | cons pq rest ih =>
      intro acc
      simp only [List.foldl_cons, List.map_cons, List.sum_cons, ih,
        dlookupD_gpStep]
      ring

theorem nodupKeys_foldl_gpStep (A : Algebra)
    (l : List ((Nat × ℚ) × (Nat × ℚ))) :
    ∀ acc : Vals, (acc.map Prod.fst).Nodup →
      (((l.foldl (gpStep A) acc)).map Prod.fst).Nodup := by
  induction l with
  | nil => exact fun acc h => h
  | cons pq rest ih =>
      intro acc hacc
      refine ih _ ?_
      unfold gpStep
      by_cases hs : A.signs pq.1.1 pq.2.1 ≠ 0
      · rw [if_pos hs]
        exact nodupKeys_addTo _ _ _ hacc
      · rwa [if_neg hs]

theorem dlookup_filter_nz (l : Vals) (hl : (l.map Prod.fst).Nodup) (k : Nat) :
    dlookup (l.filter fun kv => kv.2 ≠ 0) k =
      (dlookup l k).bind fun v => if v = 0 then none else some v := by
  induction l with
  | nil => rfl
  | cons hd tl ih =>
      obtain ⟨k₀, v₀⟩ := hd
      simp only [List.map_cons, List.nodup_cons] at hl
      have htl := ih hl.2
      rw [List.filter_cons]
      by_cases hv : v₀ = 0
      · rw [if_neg (by simp [hv])]
        by_cases hk : k = k₀
        · subst hk
          have hnone : dlookup (tl.filter fun kv => kv.2 ≠ 0) k = none := by
            refine dlookup_eq_none_of_not_mem_keys fun hmem => hl.1 ?_
            exact ((List.filter_sublist tl).map Prod.fst).subset hmem
          rw [hnone]
          simp [dlookup, hv]
        · rw [htl]
          simp [dlookup, hk]
      · rw [if_pos (by simp [hv])]
        by_cases hk : k = k₀
        · subst hk
          simp [dlookup, hv]
        · simp only [dlookup, if_neg hk]
          exact htl

/-- C1: the geometric product derivation `gp(x, y)` accumulates, for each
pair of active entries `(ei, vi)` of `x` and `(ej, vj)` of `y` with non-zero
descriptor sign, the term `sign(ei,ej) * vi * vj` under the combined key
`ei XOR ej`, and every accumulated coefficient that simplifies to zero is
removed from the output support: key `k` reads back exactly the accumulated
total when that total is non-zero, and is absent from the output otherwise. -/
theorem codegen_gp_spec (A : Algebra) (x y : Vals) (k : Nat) :
    dlookup (codegen_gp A x y) k =
      if gpCoeff A x y k = 0 then none else some (gpCoeff A x y k) := by
  have hnodup : (((pairProd x y).foldl (gpStep A) []).map Prod.fst).Nodup :=
    nodupKeys_foldl_gpStep A (pairProd x y) [] (by simp)
  have hsum : dlookupD ((pairProd x y).foldl (gpStep A) []) k =
      gpCoeff A x y k := by
    rw [dlookupD_foldl_gpStep]
    simp [dlookupD, dlookup, gpCoeff]
  rw [codegen_gp, dlookup_filter_nz _ hnodup]
  cases h : dlookup ((pairProd x y).foldl (gpStep A) []) k with
  | none =>
      have h0 : gpCoeff A x y k = 0 := by
        rw [← hsum]
        simp [dlookupD, h]

      simp [h0]
  | some v =>
      have hv : v = gpCoeff A x y k := by
        rw [← hsum]
        simp [dlookupD, h]
      by_cases hz : v = 0
      · simp [hz, ← hv]
      · simp [hz, hv]

/-- The Python statement `d[k] = v`: overwrite the first entry with key `k`
in place, or append `(k, v)` when `k` is absent. -/
def setVal : Vals → Nat → ℚ → Vals
  | [], k, v => [(k, v)]
  | (k₀, v₀) :: rest, k, v =>
      if k₀ = k then (k, v) :: rest else (k₀, v₀) :: setVal rest k v

/-- `dict(self.items())` in `MultiVector.__add__`: rebuild the mapping entry
by entry. -/
def dictOf (l : Vals) : Vals :=
  l.foldl (fun acc kv => setVal acc kv.1 kv.2) []

/-- `MultiVector.__add__` for two multivectors: start from `dict(self.items())`
and for every entry of `other` add to a shared key or insert a fresh key. -/
def MV_add (x y : Vals) : Vals :=
  y.foldl (fun vals kv => addTo vals kv.1 kv.2) (dictOf x)

/-- `MultiVector.__add__` with a non-`MultiVector` scalar operand, which the
code wraps as `fromkeysvalues(algebra, (0,), (other,))`. -/
def MV_add_scalar (x : Vals) (c : ℚ) : Vals :=
  MV_add x [(0, c)]

/-- `MultiVector.__sub__` with a scalar operand: `self + (-other)`. -/
def MV_sub_scalar (x : Vals) (c : ℚ) : Vals :=
  MV_add_scalar x (-c)

/-- Pointwise addition of optional coefficients: the value a key of `x + y`
reads as, an absent side contributing nothing. -/
def optAdd : Option ℚ → Option ℚ → Option ℚ
  | some a, some b => some (a + b)
  | some a, none => some a
  | none, ob => ob

theorem setVal_not_mem (l : Vals) (k : Nat) (v : ℚ)
    (h : k ∉ l.map Prod.fst) : setVal l k v = l ++ [(k, v)] := by
  induction l with
  | nil => rfl
  | cons hd tl ih =>
      obtain ⟨k₀, v₀⟩ := hd
      simp only [List.map_cons, List.mem_cons, not_or] at h
      have hne : ¬ k₀ = k := fun hh => h.1 hh.symm
      simp [setVal, hne, ih h.2]

theorem foldl_setVal_disjoint (l : Vals) :
    ∀ acc : Vals, (∀ p ∈ l, p.1 ∉ acc.map Prod.fst) → (l.map Prod.fst).Nodup →
      l.foldl (fun a kv => setVal a kv.1 kv.2) acc = acc ++ l := by
  induction l with
  | nil => simp
  | cons hd tl ih =>
      intro acc hdisj hnodup
      obtain ⟨k₀, v₀⟩ := hd
      simp only [List.map_cons, List.nodup_cons] at hnodup
      have hk₀ : k₀ ∉ acc.map Prod.fst := hdisj (k₀, v₀) (List.mem_cons_self _ _)
      have hset : setVal acc k₀ v₀ = acc ++ [(k₀, v₀)] := setVal_not_mem _ _ _ hk₀
      rw [List.foldl_cons]
      show List.foldl (fun a kv => setVal a kv.1 kv.2) (setVal acc k₀ v₀) tl = _
      rw [ih (setVal acc k₀ v₀) ?_ hnodup.2, hset]
      · simp
      · intro p hp
        rw [hset]
        simp only [List.map_append, List.mem_append, List.map_cons, List.map_nil,
          List.mem_singleton, not_or]
        refine ⟨hdisj p (List.mem_cons_of_mem _ hp), fun hpk => ?_⟩
        exact hnodup.1 (hpk ▸ List.mem_map_of_mem Prod.fst hp)

theorem dictOf_eq_self (l : Vals) (h : (l.map Prod.fst).Nodup) :
    dictOf l = l := by
  simpa [dictOf] using foldl_setVal_disjoint l [] (by simp) h

theorem addTo_zero (l : Vals) (k : Nat) :
    addTo l k 0 = if k ∈ l.map Prod.fst then l else l ++ [(k, 0)] := by
  induction l with
  | nil => simp [addTo]
  | cons hd tl ih =>
      obtain ⟨k₀, v₀⟩ := hd
      by_cases h0 : k₀ = k
      · subst h0
        simp [addTo]
      · have hk : ¬ k = k₀ := fun hh => h0 hh.symm
        simp only [addTo, if_neg h0, List.map_cons, List.mem_cons, ih]
        by_cases hmem : k ∈ tl.map Prod.fst <;> simp [hmem, hk]

theorem dlookup_foldl_addTo (y : Vals) (hy : (y.map Prod.fst).Nodup) :
    ∀ (acc : Vals) (k : Nat),
      dlookup (y.foldl (fun vals kv => addTo vals kv.1 kv.2) acc) k =
        optAdd (dlookup acc k) (dlookup y k) := by
  induction y with
  | nil =>
      intro acc k
      cases h : dlookup acc k <;> simp [optAdd, dlookup, h]
  | cons hd tl ih =>
      intro acc k
      obtain ⟨k₀, v₀⟩ := hd
      simp only [List.map_cons, List.nodup_cons] at hy
      rw [List.foldl_cons]
      show dlookup (List.foldl (fun vals kv => addTo vals kv.1 kv.2)
        (addTo acc k₀ v₀) tl) k = _
      rw [ih hy.2 (addTo acc k₀ v₀) k]
      by_cases hk : k = k₀
      · subst hk
        rw [dlookup_eq_none_of_not_mem_keys hy.1, dlookup_addTo_self]
        cases h : dlookup acc k <;> simp [optAdd, dlookup, h]
      · rw [dlookup_addTo_ne _ _ _ _ hk]
        simp only [dlookup, if_neg hk]

theorem keys_foldl_addTo (y : Vals) (hy : (y.map Prod.fst).Nodup) :
    ∀ acc : Vals,
      (y.foldl (fun vals kv => addTo vals kv.1 kv.2) acc).map Prod.fst =
        acc.map Prod.fst ++
          (y.map Prod.fst).filter fun k => k ∉ acc.map Prod.fst := by
  induction y with
  | nil => simp
  | cons hd tl ih =>
      intro acc
      obtain ⟨k₀, v₀⟩ := hd
      simp only [List.map_cons, List.nodup_cons] at hy
      rw [List.foldl_cons]
      show (List.foldl (fun vals kv => addTo vals kv.1 kv.2)
        (addTo acc k₀ v₀) tl).map Prod.fst = _
      rw [ih hy.2 (addTo acc k₀ v₀), keys_addTo]
      by_cases hmem : k₀ ∈ acc.map Prod.fst
      · rw [if_pos hmem, List.map_cons, List.filter_cons]
        rw [if_neg (by simpa using hmem)]
      · rw [if_neg hmem, List.map_cons, List.filter_cons,
          if_pos (by simpa using hmem)]
        have hfil : (tl.map Prod.fst).filter
            (fun k => k ∉ acc.map Prod.fst ++ [k₀]) =
            (tl.map Prod.fst).filter fun k => k ∉ acc.map Prod.fst := by
          refine List.filter_congr fun a ha => ?_
          have hne : a ≠ k₀ := fun hh => hy.1 (hh ▸ ha)
          simp [hne]
        rw [hfil]
        simp

/-- C9: for multivectors with duplicate-free key tuples, the key support of
`x + y` is exactly the union of the two supports (`x`'s keys in order, then
`y`'s keys not already present), and a shared key reads back the sum of the
two coefficients even when that sum is zero — the entry is retained, never
dropped. -/
theorem MV_add_support (x y : Vals) (hx : (x.map Prod.fst).Nodup)
    (hy : (y.map Prod.fst).Nodup) :
    (MV_add x y).map Prod.fst =
        x.map Prod.fst ++
          ((y.map Prod.fst).filter fun k => k ∉ x.map Prod.fst) ∧
      ∀ k : Nat, dlookup (MV_add x y) k = optAdd (dlookup x k) (dlookup y k) := by
  unfold MV_add
  rw [dictOf_eq_self x hx]
  exact ⟨keys_foldl_addTo y hy x, fun k => dlookup_foldl_addTo y hy x k⟩

/-- C9 witness: `x = 1*e1`, `y = (-1)*e1`; the shared key `1` is kept with
coefficient `0`. -/
theorem MV_add_support_witness :
    (MV_add [(1, 1)] [(1, -1)]).map Prod.fst =
        [((1 : Nat), (1 : ℚ))].map Prod.fst ++
          (([((1 : Nat), (-1 : ℚ))].map Prod.fst).filter
            fun k => k ∉ [((1 : Nat), (1 : ℚ))].map Prod.fst) ∧
      ∀ k : Nat, dlookup (MV_add [(1, 1)] [(1, -1)]) k =
        optAdd (dlookup [(1, 1)] k) (dlookup [(1, -1)] k) :=
  MV_add_support [(1, 1)] [(1, -1)] (by decide) (by decide)

/-- C5 counterexample: for `v = 1*e1` (no scalar slot), `v + 0` gains a new
entry `(0, 0)`, so `v + 0` and `v` differ in key support and the dataclass
equality `v + 0 == v` is false. -/
theorem MV_add_scalar_zero_counterexample :
    MV_add_scalar [(1, 1)] 0 = [(1, 1), (0, 0)] ∧
      MV_add_scalar [(1, 1)] 0 ≠ [(1, (1 : ℚ))] := by
  constructor
  · rfl
  · decide

/-- C5 (amended): adding the additive identity leaves every stored
coefficient unchanged; `v + 0` equals `v` exactly when `v` already stores the
scalar key `0`, and otherwise equals `v` with a fresh zero entry `(0, 0)`
appended. -/
theorem MV_add_scalar_zero (v : Vals) (hv : (v.map Prod.fst).Nodup) :
    MV_add_scalar v 0 =
      if 0 ∈ v.map Prod.fst then v else v ++ [(0, 0)] := by
  unfold MV_add_scalar MV_add
  rw [dictOf_eq_self v hv]
  show addTo v 0 0 = _
  exact addTo_zero v 0

/-- C5 witness: `v = 2 + 3*e1` stores the scalar key, so `v + 0 = v`. -/
theorem MV_add_scalar_zero_witness :
    MV_add_scalar [(0, 2), (1, 3)] 0 =
      if 0 ∈ [((0 : Nat), (2 : ℚ)), (1, 3)].map Prod.fst then
        [((0 : Nat), (2 : ℚ)), (1, 3)]
      else [((0 : Nat), (2 : ℚ)), (1, 3)] ++ [(0, 0)] :=
  MV_add_scalar_zero [(0, 2), (1, 3)] (by decide)

/-- A `MultiVector.__getitem__` index: a binary blade key (Python `int`) or
a canonical blade name (Python `str`). -/
inductive MVKey where
  | ikey (n : Nat)
  | skey (s : String)

/-- The key-resolution step of `__getitem__` (also of `__contains__`):
`key = key if key in self.algebra.bin2canon else self.algebra.canon2bin[key]`.
An integer key is valid iff it is in the binary-key table; any other index
falls through to the canonical-name table, whose missing-key access raises
`KeyError` (an integer is never a key of `canon2bin`, a string never a key of
`bin2canon`). -/
def resolveKey (A : Algebra) : MVKey → Except String Nat
  | .ikey n => if (dlookup A.bin2canon n).isSome then .ok n else .error "KeyError"
  | .skey s =>
      match dlookup A.canon2bin s with
      | some k => .ok k
      | none => .error "KeyError"

/-- `MultiVector.__getitem__` for a plain (non-slice, non-tuple) index over
tuple-backed values: resolve the index to a binary key, find its position in
`self.keys()` and read the aligned value, and return the additive identity
`0` when `tuple.index` raises `ValueError` (key absent). -/
def getitem (A : Algebra) (v : Vals) (item : MVKey) : Except String ℚ :=
  match resolveKey A item with
  | .error e => .error e
  | .ok k =>
      match dlookup v k with
      | some val => .ok val
      | none => .ok 0

/-- C6: for every multivector and every index that resolves to a binary key
(a valid key or a resolvable canonical name), if the resolved key is not
among the stored keys then `v[k]` returns the additive identity `0` — it
does not raise. -/
theorem getitem_absent (A : Algebra) (v : Vals) (item : MVKey) (k : Nat)
    (hres : resolveKey A item = .ok k) (habs : dlookup v k = none) :
    getitem A v item = .ok 0 := by
  simp [getitem, hres, habs]

/-- A concrete non-degenerate one-dimensional descriptor (Cl(1,0)): blades
`1` and `e1`, all geometric-product signs `+1`. -/
def euclAlg1 : Algebra where
  d := 1
  r := 0
  size := 2
  pssKey := 1
  signs := fun _ _ => 1
  bin2canon := [(0, "1"), (1, "e1")]
  canon2bin := [("1", 0), ("e1", 1)]

/-- C6 witness: in Cl(1,0), reading key `1` (blade `e1`) of the pure scalar
`5` yields `0`. -/
theorem getitem_absent_witness :
    getitem euclAlg1 [(0, 5)] (MVKey.ikey 1) = .ok 0 :=
  getitem_absent euclAlg1 [(0, 5)] (MVKey.ikey 1) 1 (by rfl) (by rfl)

/-- C10: an index that resolves through neither the binary-key table nor the
canonical-name table makes `__getitem__` raise `KeyError` — it is not read
as the additive identity; only valid-but-absent keys read as `0`. -/
theorem getitem_unresolvable (A : Algebra) (v : Vals) (n : Nat) (s : String)
    (hn : dlookup A.bin2canon n = none) (hs : dlookup A.canon2bin s = none) :
    getitem A v (MVKey.ikey n) = .error "KeyError" ∧
      getitem A v (MVKey.skey s) = .error "KeyError" := by
  constructor <;> simp [getitem, resolveKey, hn, hs]

/-- C10 witness: in Cl(1,0), neither the key `7` nor the name `"e3"`
resolves, and both accesses raise `KeyError`. -/
theorem getitem_unresolvable_witness :
    getitem euclAlg1 [(0, 5)] (MVKey.ikey 7) = .error "KeyError" ∧
      getitem euclAlg1 [(0, 5)] (MVKey.skey "e3") = .error "KeyError" :=
  getitem_unresolvable euclAlg1 [(0, 5)] 7 "e3" (by rfl) (by rfl)

/-- Modelled from the spec: polarity duality is "divide by the pseudoscalar"
(`self / self.algebra.pss`; `algebra.div` is not under `src/`).  In a
non-degenerate algebra the basis pseudoscalar `P` squares to the unit scalar
`signs[pssKey, pssKey] ≠ 0`, so `v / P = v * (signs[pssKey,pssKey]⁻¹ * P)`,
a geometric product with a single-blade right operand. -/
def div_pss (A : Algebra) (v : Vals) : Vals :=
  codegen_gp A v [(A.pssKey, (A.signs A.pssKey A.pssKey)⁻¹)]

/-- Modelled from the spec: polarity unduality is "multiply by the
pseudoscalar" (`self * self.algebra.pss`; the concrete product is dispatched
through the descriptor's derivation pipeline, not under `src/`). -/
def mul_pss (A : Algebra) (v : Vals) : Vals :=
  codegen_gp A v [(A.pssKey, 1)]

/-- The Hodge branch of `MultiVector.dual`: reindex key `eI` to
`len(algebra) - 1 - eI` with the sign `signs[eI, len(algebra) - 1 - eI]`,
collected into a fresh mapping. -/
def hodgeDual (A : Algebra) (v : Vals) : Vals :=
  dictOf (v.map fun kv => (A.size - 1 - kv.1, A.signs kv.1 (A.size - 1 - kv.1) * kv.2))

/-- The Hodge branch of `MultiVector.undual`: as `hodgeDual` but with the
sign looked up in the flipped direction `signs[len(algebra) - 1 - eI, eI]`. -/
def hodgeUndual (A : Algebra) (v : Vals) : Vals :=
  dictOf (v.map fun kv => (A.size - 1 - kv.1, A.signs (A.size - 1 - kv.1) kv.1 * kv.2))

/-- `MultiVector.dual(kind)`: polarity for `kind='polarity'` or auto with
`r = 0`; Hodge for `kind='hodge'` or auto with `r = 1`; otherwise an
`Exception` in auto mode and a `ValueError` for an unknown kind. -/
def MV_dual (A : Algebra) (v : Vals) (kind : String) : Except String Vals :=
  if kind = "polarity" ∨ (kind = "auto" ∧ A.r = 0) then .ok (div_pss A v)
  else if kind = "hodge" ∨ (kind = "auto" ∧ A.r = 1) then .ok (hodgeDual A v)
  else if kind = "auto" then .error "Exception"
  else .error "ValueError"

/-- `MultiVector.undual(kind)`: mirror image of `MV_dual`. -/
def MV_undual (A : Algebra) (v : Vals) (kind : String) : Except String Vals :=
  if kind = "polarity" ∨ (kind = "auto" ∧ A.r = 0) then .ok (mul_pss A v)
  else if kind = "hodge" ∨ (kind = "auto" ∧ A.r = 1) then .ok (hodgeUndual A v)
  else if kind = "auto" then .error "Exception"
  else .error "ValueError"

/-- C8: for an algebra whose degenerate-dimension count `r` is neither 0 nor
1, `dual` and `undual` in auto mode raise an explicit error instead of
silently choosing a duality policy. -/
theorem dual_auto_error (A : Algebra) (v : Vals)
    (h0 : A.r ≠ 0) (h1 : A.r ≠ 1) :
    MV_dual A v "auto" = .error "Exception" ∧
      MV_undual A v "auto" = .error "Exception" := by
  have hp : ¬("auto" = "polarity" ∨ ("auto" = "auto" ∧ A.r = 0)) := by
    rintro (h | ⟨-, hr⟩)
    · exact absurd h (by decide)
    · exact h0 hr
  have hh : ¬("auto" = "hodge" ∨ ("auto" = "auto" ∧ A.r = 1)) := by
    rintro (h | ⟨-, hr⟩)
    · exact absurd h (by decide)
    · exact h1 hr
  constructor
  · unfold MV_dual
    rw [if_neg hp, if_neg hh, if_pos rfl]
  · unfold MV_undual
    rw [if_neg hp, if_neg hh, if_pos rfl]

/-- A doubly-degenerate descriptor (`r = 2`), for which no auto duality
policy exists. -/
def degAlg2 : Algebra where
  d := 2
  r := 2
  size := 4
  pssKey := 3
  signs := fun _ _ => 0
  bin2canon := [(0, "1"), (1, "e1"), (2, "e2"), (3, "e12")]
  canon2bin := [("1", 0), ("e1", 1), ("e2", 2), ("e12", 3)]

/-- C8 witness: with `r = 2`, auto dual and undual of `1*e1` both raise. -/
theorem dual_auto_error_witness :
    MV_dual degAlg2 [(1, 1)] "auto" = .error "Exception" ∧
      MV_undual degAlg2 [(1, 1)] "auto" = .error "Exception" :=
  dual_auto_error degAlg2 [(1, 1)] (by decide) (by decide)

/-- The outcome of calling a Python function: a normal return or a raised
exception. -/
inductive PyOutcome (α : Type) where
  | returns (v : α)
  | raises (e : String)

/-- What `codegen_acp` can produce: the `NotImplementedError` exception class
itself (as a value), or a derived result mapping like its sibling
derivations. -/
inductive AcpResult where
  | notImplementedErrorClass
  | derived (vals : Vals)

/-- `codegen_acp` (codegen.py): the body is `return NotImplementedError` —
the exception class object is returned as the function's value; nothing is
raised. -/
def codegen_acp (_x _y : Vals) : PyOutcome AcpResult :=
  .returns .notImplementedErrorClass

/-- C4 (code bug, spec §9 flags it): for every pair of operands,
`codegen_acp` returns the `NotImplementedError` class as its value — it
never raises a not-implemented signal, contradicting the required
fail-with-a-signal behaviour. -/
theorem codegen_acp_returns_error_object (x y : Vals) :
    codegen_acp x y = PyOutcome.returns AcpResult.notImplementedErrorClass ∧
      ∀ e : String, codegen_acp x y ≠ PyOutcome.raises e :=
  ⟨rfl, fun _ h => PyOutcome.noConfusion h⟩

/-- A sympy-style symbolic expression, carrying enough structure for the
free-symbol set and for evaluation under a symbol binding. -/
inductive SExpr where
  | const (q : ℚ)
  | sym (name : String)
  | add (a b : SExpr)
  | mul (a b : SExpr)
deriving DecidableEq

/-- The free-symbol set of an expression (`expr.free_symbols`), as a
duplicate-free union of the subexpressions' sets. -/
def SExpr.freeSyms : SExpr → List String
  | .const _ => []
  | .sym n => [n]
  | .add a b => a.freeSyms ++ b.freeSyms.filter (· ∉ a.freeSyms)
  | .mul a b => a.freeSyms ++ b.freeSyms.filter (· ∉ a.freeSyms)

/-- Evaluation of an expression under a symbol binding. -/
def SExpr.evalAt (env : String → ℚ) : SExpr → ℚ
  | .const q => q
  | .sym n => env n
  | .add a b => a.evalAt env + b.evalAt env
  | .mul a b => a.evalAt env * b.evalAt env

/-- A Python coefficient as stored in `_values`: a plain Python numeric
(which has no `free_symbols` attribute) or a sympy expression. -/
inductive Coeff where
  | pynum (q : ℚ)
  | sexpr (e : SExpr)
deriving DecidableEq

/-- Reading `v.free_symbols`: defined on sympy expressions only; `none`
models the `AttributeError` a plain Python numeric raises. -/
def Coeff.freeSymbolsAttr : Coeff → Option (List String)
  | .pynum _ => none
  | .sexpr e => some e.freeSyms

/-- Set union `tot | x` of free-symbol sets, as duplicate-free list union. -/
def unionSyms (a b : List String) : List String :=
  a ++ b.filter (· ∉ a)

/-- The tail of `reduce(lambda tot, x: tot | x, ...)`: fold the union over
the remaining coefficients, stopping with `AttributeError` at the first
coefficient that lacks `free_symbols`. -/
def fsFold (acc : List String) : List Coeff → Except String (List String)
  | [] => .ok acc
  | c :: rest =>
      match c.freeSymbolsAttr with
      | none => .error "AttributeError"
      | some s => fsFold (unionSyms acc s) rest

/-- `MultiVector.free_symbols`:
`reduce(lambda tot, x: tot | x, (v.free_symbols for v in self.values()))`.
`reduce` over an empty sequence raises `TypeError`; the generator raises
`AttributeError` at the first coefficient without the attribute. -/
def MV_free_symbols : List Coeff → Except String (List String)
  | [] => .error "TypeError"
  | c :: rest =>
      match c.freeSymbolsAttr with
      | none => .error "AttributeError"
      | some s => fsFold s rest

/-- Insertion of a string into a name-sorted list. -/
def insertString (s : String) : List String → List String
  | [] => [s]
  | t :: rest => if s < t then s :: t :: rest else t :: insertString s rest

/-- `sorted(self.free_symbols, key=lambda x: x.name)`. -/
def sortStrings (l : List String) : List String :=
  l.foldr insertString []

/-- Modelled from the spec: the compiled-evaluator branch of
`MultiVector.__call__` (`self._callable`, built by `_lambdify_mv` via the
external `sympy.lambdify`): bind the supplied arguments positionally to the
free symbols ordered by name and evaluate every coefficient to a plain
number. -/
def evalCallable (v : List (Nat × Coeff)) (syms : List String)
    (args : List ℚ) : List (Nat × Coeff) :=
  let sorted := sortStrings syms
  let env := fun n =>
    match sorted.indexOf? n with
    | some i => args.getD i 0
    | none => 0
  v.map fun kv =>
    match kv.2 with
    | .pynum q => (kv.1, Coeff.pynum q)
    | .sexpr e => (kv.1, Coeff.pynum (e.evalAt env))

/-- `MultiVector.__call__`: if `self.free_symbols` is empty return `self`
unchanged, otherwise evaluate through the memoized compiled form; an
exception from `free_symbols` propagates. -/
def MV_call (v : List (Nat × Coeff)) (args : List ℚ) :
    Except String (List (Nat × Coeff)) :=
  match MV_free_symbols (v.map Prod.snd) with
  | .error e => .error e
  | .ok syms => if syms = [] then .ok v else .ok (evalCallable v syms args)

theorem fsFold_all_empty (l : List Coeff)
    (h : ∀ c ∈ l, ∃ e : SExpr, c = Coeff.sexpr e ∧ e.freeSyms = []) :
    ∀ acc : List String, fsFold acc l = .ok acc := by
  induction l with
  | nil => intro acc; rfl
  | cons c rest ih =>
      intro acc
      obtain ⟨e, rfl, he⟩ := h c (List.mem_cons_self _ _)
      have hrest := fun c hc => h c (List.mem_cons_of_mem _ hc)
      simp [fsFold, Coeff.freeSymbolsAttr, he, unionSyms, ih hrest]

/-- C7 counterexample: the multivector `(keys (0,), values (1,))` whose
coefficient is the plain Python numeric `1` holds no free symbolic
parameters, yet calling it raises `AttributeError` (plain numerics have no
`free_symbols` attribute) instead of returning it unchanged. -/
theorem MV_call_numeric_counterexample :
    MV_call [(0, Coeff.pynum 1)] [] = .error "AttributeError" ∧
      MV_call [(0, Coeff.pynum 1)] [] ≠ .ok [(0, Coeff.pynum 1)] := by
  constructor
  · rfl
  · intro h
    exact Except.noConfusion h

/-- C7 (amended): for every nonempty multivector all of whose coefficients
are sympy expressions with an empty free-symbol set (e.g. sympy numeric
constants), calling it as a function returns it unchanged.  (Plain Python
numeric coefficients instead raise `AttributeError`, and an empty
coefficient sequence raises `TypeError`.) -/
theorem MV_call_no_free_symbols (v : List (Nat × Coeff)) (args : List ℚ)
    (hne : v ≠ [])
    (hsym : ∀ c ∈ v.map Prod.snd, ∃ e : SExpr, c = Coeff.sexpr e ∧ e.freeSyms = []) :
    MV_call v args = .ok v := by
  cases v with
  | nil => exact absurd rfl hne
  | cons kv rest =>
      obtain ⟨e, he, hfe⟩ := hsym kv.2 (by simp)
      have hrest : ∀ c ∈ rest.map Prod.snd,
          ∃ e : SExpr, c = Coeff.sexpr e ∧ e.freeSyms = [] := by
        intro c hc
        exact hsym c (by simp [hc])
      unfold MV_call MV_free_symbols
      simp only [List.map_cons, he, Coeff.freeSymbolsAttr, hfe,
        fsFold_all_empty (rest.map Prod.snd) hrest []]
      rfl

/-- C7 witness: a multivector whose single coefficient is the sympy constant
`2` returns unchanged when called. -/
theorem MV_call_no_free_symbols_witness :
    MV_call [(0, Coeff.sexpr (SExpr.const 2))] [] =
      .ok [(0, Coeff.sexpr (SExpr.const 2))] :=
  MV_call_no_free_symbols [(0, Coeff.sexpr (SExpr.const 2))] []
    (by simp)
    (by
      intro c hc
      simp only [List.map_cons, List.map_nil, List.mem_singleton] at hc
      exact ⟨SExpr.const 2, hc, rfl⟩)

/-- Fuel-indexed population count; `fuel ≥ n` makes it total on `n`. -/
def popCountFuel : Nat → Nat → Nat
  | 0, _ => 0
  | _ + 1, 0 => 0
  | fuel + 1, n + 1 => (n + 1) % 2 + popCountFuel fuel ((n + 1) / 2)

/-- `bin(ind).count('1')`: the number of set bits of a blade key. -/
def popCount (n : Nat) : Nat := popCountFuel n n

/-- Insertion into a sorted list of naturals. -/
def insertNat (n : Nat) : List Nat → List Nat
  | [] => [n]
  | m :: rest => if n ≤ m then n :: m :: rest else m :: insertNat n rest

/-- `sorted(...)` on a list of naturals. -/
def sortNat (l : List Nat) : List Nat := l.foldr insertNat []

/-- `MultiVector.grades`: `tuple(sorted({bin(ind).count('1') for ind in
self.keys()}))`. -/
def gradesList (v : Vals) : List Nat :=
  sortNat (v.map fun kv => popCount kv.1).dedup

/-- `x_i[0]`: the scalar-slot read through `__getitem__`, `0` when the key
is absent (the scalar key `0` is named in every descriptor's table). -/
def scalarPart (v : Vals) : ℚ := dlookupD v 0

/-- `k = 2 ** ((x.algebra.d + 1) // 2)` in `codegen_inv` (integer floor
division). -/
def invK (A : Algebra) : Nat := 2 ^ ((A.d + 1) / 2)

/-- The loop guard `x_i.grades != (0,) and x_i`; `MultiVector` defines no
`__bool__`, so its truthiness is `len(self._values) != 0`. -/
def invCondP (xi : Vals) : Prop := gradesList xi ≠ [0] ∧ xi ≠ []

instance : DecidablePred invCondP := fun _ => instDecidableAnd

/-- The `while` loop of `codegen_inv` with explicit fuel standing in for the
absent iteration bound.  State: iteration counter `i`, running term `x_i`,
last adjoint `adj_x` (`none` before the first iteration).  `some (adj_x,
x_i)` models a normal loop exit; `none` models either the loop still running
after `fuel` iterations (the code has no cap) or an exit before the first
iteration, where the Python code raises `UnboundLocalError` on `adj_x`.
The two `algebra.multivector({k: simplify(v) ...})` rebuilds in the loop
body are the identity here: `simplify` of an exact coefficient is itself and
the mapping constructor keeps keys and values; `x * adj_x` is the
derivation pipeline's geometric product, which drops coefficients that
simplify to zero (`codegen_gp`). -/
def invLoop (A : Algebra) (x : Vals) :
    Nat → Nat → Vals → Option Vals → Option (Vals × Vals)
  | 0, _, _, _ => none
  | fuel + 1, i, xi, adj =>
      if invCondP xi then
        let c := (invK A : ℚ) * scalarPart xi / (i : ℚ)
        let adjx := MV_sub_scalar xi c
        let xi' := codegen_gp A x adjx
        invLoop A x fuel (i + 1) xi' (some adjx)
      else
        match adj with
        | some a => some (a, xi)
        | none => none

/-- Modelled from the spec: dividing a multivector by a scalar
(`adj_x / x_i[0]`; `algebra.div` is not under `src/`) divides every
coefficient by it. -/
def div_scalar (v : Vals) (c : ℚ) : Vals :=
  v.map fun kv => (kv.1, kv.2 / c)

/-- `codegen_inv` (codegen.py): Shirokov iteration `x_0 = x`, `i = 1`; on
loop exit the result is `adj_x / x_i[0]`. -/
def codegen_inv (A : Algebra) (x : Vals) (fuel : Nat) : Option Vals :=
  match invLoop A x fuel 1 x none with
  | some (adj, xi) => some (div_scalar adj (scalarPart xi))
  | none => none

/-- The claim's "subtract `c` from the scalar slot only": rewrite the scalar
coefficient, keep every other entry untouched, materialising a scalar slot
holding `-c` when none is stored. -/
def subtractScalarSlot (v : Vals) (c : ℚ) : Vals :=
  if 0 ∈ v.map Prod.fst then
    v.map fun kv => if kv.1 = 0 then (kv.1, kv.2 - c) else kv
  else v ++ [(0, -c)]

/-- The claim's adjoint at iteration `i`:
`adjoint = x_i - (k * scalar_part(x_i) / i)` on the scalar slot only. -/
def specAdjStep (k i : Nat) (xi : Vals) : Vals :=
  subtractScalarSlot xi ((k : ℚ) * scalarPart xi / (i : ℚ))

/-- The claim's iterate sequence: `specXi A x n` is `x_{n+1}`, with
`x_1 = x` and `x_{i+1} = x * adjoint_i`. -/
def specXi (A : Algebra) (x : Vals) : Nat → Vals
  | 0 => x
  | n + 1 => codegen_gp A x (specAdjStep (invK A) (n + 1) (specXi A x n))

theorem map_if_key_not_mem (l : Vals) (k : Nat) (w : ℚ)
    (h : k ∉ l.map Prod.fst) :
    (l.map fun kv => if kv.1 = k then (kv.1, kv.2 + w) else kv) = l := by
  induction l with
  | nil => rfl
  | cons hd tl ih =>
      simp only [List.map_cons, List.mem_cons, not_or] at h
      rw [List.map_cons, ih h.2]
      have hne : ¬ hd.1 = k := fun hh => h.1 hh.symm
      simp [hne]

theorem addTo_nodup (l : Vals) (k : Nat) (w : ℚ)
    (hl : (l.map Prod.fst).Nodup) :
    addTo l k w =
      if k ∈ l.map Prod.fst then
        l.map fun kv => if kv.1 = k then (kv.1, kv.2 + w) else kv
      else l ++ [(k, w)] := by
  induction l with
  | nil => simp [addTo]
  | cons hd tl ih =>
      obtain ⟨k₀, v₀⟩ := hd
      simp only [List.map_cons, List.nodup_cons] at hl
      by_cases h0 : k₀ = k
      · subst h0
        rw [addTo]
        rw [if_pos rfl, if_pos (by simp), List.map_cons]
        simp only [ite_true]
        rw [map_if_key_not_mem tl k₀ w hl.1]
      · rw [addTo, if_neg h0, ih hl.2]
        have hk : ¬ k = k₀ := fun hh => h0 hh.symm
        by_cases hmem : k ∈ tl.map Prod.fst
        · rw [if_pos hmem, if_pos (by simp [hmem]), List.map_cons]
          simp [h0]
        · rw [if_neg hmem, if_neg (by simp [hk, hmem])]
          rfl

theorem MV_sub_scalar_eq_subtractScalarSlot (v : Vals) (c : ℚ)
    (hv : (v.map Prod.fst).Nodup) :
    MV_sub_scalar v c = subtractScalarSlot v c := by
  unfold MV_sub_scalar MV_add_scalar MV_add subtractScalarSlot
  rw [dictOf_eq_self v hv]
  show addTo v 0 (-c) = _
  rw [addTo_nodup v 0 (-c) hv]
  by_cases hmem : 0 ∈ v.map Prod.fst
  · rw [if_pos hmem, if_pos hmem]
    simp [sub_eq_add_neg]
  · rw [if_neg hmem, if_neg hmem]

theorem nodupKeys_codegen_gp (A : Algebra) (x y : Vals) :
    ((codegen_gp A x y).map Prod.fst).Nodup := by
  unfold codegen_gp
  have h := nodupKeys_foldl_gpStep A (pairProd x y) [] (by simp)
  exact ((List.filter_sublist _).map Prod.fst).nodup h

theorem nodupKeys_specXi (A : Algebra) (x : Vals)
    (hx : (x.map Prod.fst).Nodup) :
    ∀ n, ((specXi A x n).map Prod.fst).Nodup := by
  intro n
  cases n with
  | zero => exact hx
  | succ n => exact nodupKeys_codegen_gp A x _

theorem invLoop_sound (A : Algebra) (x : Vals) (hx : (x.map Prod.fst).Nodup) :
    ∀ (fuel n : Nat) (adjPrev : Option Vals) (res : Vals × Vals),
      invLoop A x fuel (n + 1) (specXi A x n) adjPrev = some res →
      ∃ m, n ≤ m ∧
        (∀ j, n ≤ j → j < m → invCondP (specXi A x j)) ∧
        ¬ invCondP (specXi A x m) ∧
        res.2 = specXi A x m ∧
        ((n < m ∧ res.1 = specAdjStep (invK A) m (specXi A x (m - 1))) ∨
          (m = n ∧ adjPrev = some res.1)) := by
  intro fuel
  induction fuel with
  | zero =>
      intro n adjPrev res h
      exact absurd h (by simp [invLoop])
  | succ fuel ih =>
      intro n adjPrev res h
      simp only [invLoop] at h
      by_cases hc : invCondP (specXi A x n)
      · rw [if_pos hc] at h
        have hsub : MV_sub_scalar (specXi A x n)
            ((invK A : ℚ) * scalarPart (specXi A x n) / ((n + 1 : Nat) : ℚ)) =
            specAdjStep (invK A) (n + 1) (specXi A x n) := by
          rw [MV_sub_scalar_eq_subtractScalarSlot _ _ (nodupKeys_specXi A x hx n)]
          rfl
        rw [hsub] at h
        have hxi : codegen_gp A x (specAdjStep (invK A) (n + 1) (specXi A x n)) =
            specXi A x (n + 1) := rfl
        rw [hxi] at h
        obtain ⟨m, hm1, hm2, hm3, hm4, hm5⟩ := ih (n + 1) _ res h
        refine ⟨m, by omega, ?_, hm3, hm4, ?_⟩
        · intro j hj1 hj2
          rcases Nat.eq_or_lt_of_le hj1 with hj | hj
          · exact hj ▸ hc
          · exact hm2 j hj hj2
        · rcases hm5 with ⟨hlt, heq⟩ | ⟨hmeq, hadj⟩
          · exact Or.inl ⟨by omega, heq⟩
          · refine Or.inl ⟨by omega, ?_⟩
            have : res.1 = specAdjStep (invK A) (n + 1) (specXi A x n) :=
              (Option.some.injEq _ _ ▸ hadj).symm
            rw [this, hmeq]
            simp
      · rw [if_neg hc] at h
        cases adjPrev with
        | none => exact absurd h (by simp)
        | some a =>
            have hres : res = (a, specXi A x n) := by
              simpa using h.symm
            refine ⟨n, le_refl n, ?_, hc, by rw [hres], Or.inr ⟨rfl, by rw [hres]⟩⟩
            intro j hj1 hj2
            omega

/-- C2 counterexample: the claim's constant is `2^⌈(d+1)/2⌉`
(`= 2^((d+2)//2)` in integer arithmetic), but the code computes
`2 ** ((d + 1) // 2)`; at the even dimension `d = 2` the code's `k` is `2`
while the claim demands `4`. -/
theorem invK_counterexample :
    invK degAlg2 = 2 ∧ 2 ^ ((degAlg2.d + 2) / 2) = 4 ∧
      invK degAlg2 ≠ 2 ^ ((degAlg2.d + 2) / 2) := by
  refine ⟨rfl, rfl, ?_⟩
  decide

/-- C2 (amended): `codegen_inv` implements Shirokov's method with
`k = 2^((dimension+1) // 2)` (floor, i.e. `2^⌈dimension/2⌉`): whenever the
iteration exits normally, some `m ≥ 1` iterations ran, the loop guard held
for `x_1 … x_m` and fails for `x_{m+1}`, the iterates follow
`c_i = k * scalar_part(x_i) / i`, `adjoint_i = x_i` with `c_i` subtracted
from the scalar slot only, `x_{i+1} = x * adjoint_i`, and the result is
`adjoint_m / scalar_part(x_{m+1})`. -/
theorem codegen_inv_spec (A : Algebra) (x : Vals) (fuel : Nat) (r : Vals)
    (hx : (x.map Prod.fst).Nodup)
    (h : codegen_inv A x fuel = some r) :
    invK A = 2 ^ ((A.d + 1) / 2) ∧
      ∃ m, 0 < m ∧
        (∀ j, j < m → invCondP (specXi A x j)) ∧
        ¬ invCondP (specXi A x m) ∧
        r = div_scalar (specAdjStep (invK A) m (specXi A x (m - 1)))
              (scalarPart (specXi A x m)) := by
  refine ⟨rfl, ?_⟩
  unfold codegen_inv at h
  cases hl : invLoop A x fuel 1 x none with
  | none =>
      rw [hl] at h
      exact absurd h (by simp)
  | some res =>
      rw [hl] at h
      obtain ⟨adj, xi⟩ := res
      have hr : r = div_scalar adj (scalarPart xi) := by simpa using h.symm
      obtain ⟨m, _, hm2, hm3, hm4, hm5⟩ :=
        invLoop_sound A x hx fuel 0 none (adj, xi) hl
      rcases hm5 with ⟨hlt, heq⟩ | ⟨-, habs⟩
      · refine ⟨m, hlt, fun j hj => hm2 j (Nat.zero_le j) hj, hm3, ?_⟩
        have heq2 : adj = specAdjStep (invK A) m (specXi A x (m - 1)) := heq
        have hm42 : xi = specXi A x m := hm4
        rw [hr, heq2, hm42]
      · exact absurd habs (by simp)

/-- C2 witness: in Cl(1,0) the element `x = 2 + e1` is inverted in one
iteration (`x_2 = -3` is purely scalar), and the result
`adjoint_1 / (-3) = 2/3 - (1/3) e1` indeed satisfies the recurrence. -/
theorem codegen_inv_spec_witness :
    invK euclAlg1 = 2 ^ ((euclAlg1.d + 1) / 2) ∧
      ∃ m, 0 < m ∧
        (∀ j, j < m → invCondP (specXi euclAlg1 [(0, 2), (1, 1)] j)) ∧
        ¬ invCondP (specXi euclAlg1 [(0, 2), (1, 1)] m) ∧
        [(0, 2/3), (1, -1/3)] =
          div_scalar
            (specAdjStep (invK euclAlg1) m (specXi euclAlg1 [(0, 2), (1, 1)] (m - 1)))
            (scalarPart (specXi euclAlg1 [(0, 2), (1, 1)] m)) :=
  codegen_inv_spec euclAlg1 [(0, 2), (1, 1)] 2 [(0, 2/3), (1, -1/3)]
    (by decide)
    (by
      norm_num [codegen_inv, invLoop, MV_sub_scalar, MV_add_scalar, MV_add,
        dictOf, setVal, addTo, codegen_gp, pairProd, gpStep, scalarPart,
        dlookupD, dlookup, invK, euclAlg1, div_scalar, invCondP, gradesList,
        sortNat, insertNat, popCount, popCountFuel, List.filter_cons,
        List.filter_nil, List.dedup]
      rw [if_neg (List.cons_ne_nil _ _)]
      norm_num [dlookup])

/-- A descriptor as an unvalidated external collaborator can supply it: its
sign table is the one of Cl(1,0) on the keys `{0, 1}` (every sign `+1`), but
its `d` field reports dimension `0`.  `codegen_inv` reads `algebra.d`
blindly (`k = 2^((d+1)//2) = 1` here) and imposes no iteration bound. -/
def badAlg : Algebra where
  d := 0
  r := 0
  size := 2
  pssKey := 1
  signs := fun _ _ => 1
  bin2canon := [(0, "1"), (1, "e1")]
  canon2bin := [("1", 0), ("e1", 1)]

/-- The input `x = 3/2 + (1/2) e1` (keys `(0, 1)`, values `(3/2, 1/2)`). -/
def badX : Vals := [(0, 3/2), (1, 1/2)]

/-- Invariant of the runaway Shirokov iteration on `badAlg`/`badX` at
iteration counter `i`: the running term is `a + b e1` with `0 < a`, `0 < b`,
and `a < b` from the second iteration on. -/
def badInv (i : Nat) (xi : Vals) : Prop :=
  ∃ a b : ℚ, xi = [(0, a), (1, b)] ∧ 0 < a ∧ 0 < b ∧ 1 ≤ i ∧ (2 ≤ i → a < b)

theorem codegen_gp_badX (u w : ℚ)
    (hu : (3 / 2 : ℚ) * u + 1 / 2 * w ≠ 0)
    (hw : (3 / 2 : ℚ) * w + 1 / 2 * u ≠ 0) :
    codegen_gp badAlg badX [(0, u), (1, w)] =
      [(0, (3 / 2 : ℚ) * u + 1 / 2 * w), (1, (3 / 2 : ℚ) * w + 1 / 2 * u)] := by
  have hfold : (pairProd badX [(0, u), (1, w)]).foldl (gpStep badAlg) [] =
      [(0, (3 / 2 : ℚ) * u + 1 / 2 * w), (1, (3 / 2 : ℚ) * w + 1 / 2 * u)] := by
    norm_num [pairProd, gpStep, addTo, badAlg, badX]
  unfold codegen_gp
  rw [hfold, List.filter_cons, if_pos (by simpa using hu), List.filter_cons,
    if_pos (by simpa using hw), List.filter_nil]

theorem invLoop_badAlg_none :
    ∀ (fuel i : Nat) (xi : Vals) (adjPrev : Option Vals),
      badInv i xi → invLoop badAlg badX fuel i xi adjPrev = none := by
  intro fuel
  induction fuel with
  | zero => intro i xi adjPrev _; rfl
  | succ fuel ih =>
      intro i xi adjPrev hinv
      obtain ⟨a, b, rfl, ha, hb, hi1, hi2⟩ := hinv
      have hcond : invCondP [(0, a), (1, b)] := by
        refine ⟨?_, by simp⟩
        rw [show gradesList [(0, a), (1, b)] = [0, 1] from rfl]
        decide
      simp only [invLoop]
      rw [if_pos hcond]
      have hC : (invK badAlg : ℚ) * scalarPart [(0, a), (1, b)] / (i : ℚ) =
          a / (i : ℚ) := by
        norm_num [invK, badAlg, scalarPart, dlookupD, dlookup]
      rw [hC]
      have hsub : MV_sub_scalar [(0, a), (1, b)] (a / (i : ℚ)) =
          [(0, a + -(a / (i : ℚ))), (1, b)] := rfl
      rw [hsub]
      have key : 0 ≤ a + -(a / (i : ℚ)) ∧ a + -(a / (i : ℚ)) < b := by
        rcases eq_or_lt_of_le hi1 with h1 | h2
        · subst h1
          norm_num
          exact hb
        · have hi2' : a < b := hi2 (by omega)
          have hcast : (2 : ℚ) ≤ (i : ℚ) := by exact_mod_cast h2
          have hipos : (0 : ℚ) < (i : ℚ) := by linarith
          have hCpos : 0 < a / (i : ℚ) := div_pos ha hipos
          have hCle : a / (i : ℚ) ≤ a / 2 :=
            div_le_div_of_nonneg_left ha.le (by norm_num) hcast
          constructor <;> linarith
      have hE0 : 0 < (3 / 2 : ℚ) * (a + -(a / (i : ℚ))) + 1 / 2 * b := by
        rcases key with ⟨k1, _⟩
        linarith
      have hE1 : 0 < (3 / 2 : ℚ) * b + 1 / 2 * (a + -(a / (i : ℚ))) := by
        rcases key with ⟨k1, _⟩
        linarith
      rw [codegen_gp_badX (a + -(a / (i : ℚ))) b (ne_of_gt hE0) (ne_of_gt hE1)]
      refine ih (i + 1) _ _ ⟨_, _, rfl, hE0, hE1, by omega, fun _ => ?_⟩
      rcases key with ⟨-, k2⟩
      linarith

/-- C3 (code bug): the `while` loop of `codegen_inv` has no iteration bound
and no failure signal.  On the concrete descriptor `badAlg` and input
`badX = 3/2 + (1/2) e1` the loop guard holds at every iteration, so the
fuel-indexed loop never exits no matter how much fuel it is given: the
Python derivation hangs instead of terminating within a bound or signalling
a computation failure. -/
theorem codegen_inv_unbounded (fuel : Nat) :
    codegen_inv badAlg badX fuel = none := by
  unfold codegen_inv
  rw [invLoop_badAlg_none fuel 1 badX none
    ⟨3 / 2, 1 / 2, rfl, by norm_num, by norm_num, le_refl 1,
      fun h => absurd h (by omega)⟩]

end Kingdon
